import Mathlib

/-!
Verification of the scalar reverse-mode automatic differentiation engine in
`TinyGrad.py` (class `Value`).

Embedding choices:

* Python `Value` objects form a heap of mutable records; we model the heap as
  a list `St` of node records, a node reference being its index (nodes are
  only ever appended, so an index uniquely identifies the object for the whole
  run, mirroring Python object identity).
* Numeric data is modelled over `ℚ`.  The transcendental primitives that the
  source takes from the float world (`math.exp`, `math.log` and float `**`)
  have no exact rational counterpart, so they are passed in as an explicit
  parameter record `Prims`; every theorem holds for an arbitrary
  interpretation of these primitives (with explicitly stated algebraic facts
  about them as hypotheses where a claim needs one).
* Each arithmetic method of `Value` allocates an output node and installs a
  `_backward` closure.  The closure's behaviour is fully determined by the
  operation kind and the captured object references, so we store a first-order
  description (`BwdKind`) in the node and interpret it in `stepBwd`, which
  performs exactly the sequence of reads and gradient writes of the source
  closure.
* `Value._prev` is a Python `set` whose iteration order is unspecified; we
  keep the operand tuple as a list and iterate it in order.  Every property
  proved below is independent of that order choice (duplicates are harmless
  because the traversal keeps a visited set, exactly as in the source).
* Fallible spots are modelled with `Except`: the only statement of the engine
  that can raise on a structurally well-formed graph is the `__truediv__`
  backward closure applied to a raw (non-`Value`) right operand, which hits
  `other.data` on a plain number (`AttributeError`).
-/

/-- Interpretations of the numeric primitives the source borrows from the
float world: `math.exp`, `math.log`, and the binary `**` on numbers. -/
structure Prims where
  exp : ℚ → ℚ
  log : ℚ → ℚ
  pow : ℚ → ℚ → ℚ

/-- First-order description of the `_backward` closure installed on a node.
`none` is the default `lambda: None` from `Value.__init__`.  `divRaw` is the
closure installed by `__truediv__` when the right operand was a raw number
(the closure then captures the raw number `c` instead of a node). -/
inductive BwdKind where
  | none : BwdKind
  | add (a b : Nat) : BwdKind
  | mul (a b : Nat) : BwdKind
  | div (a b : Nat) : BwdKind
  | divRaw (a : Nat) (c : ℚ) : BwdKind
  | pow (a b : Nat) : BwdKind
  | relu (a : Nat) : BwdKind
  | sigmoid (a : Nat) : BwdKind
  | tanh (a : Nat) : BwdKind
  | leakyRelu (alpha : ℚ) (a : Nat) : BwdKind
  | elu (alpha : ℚ) (a : Nat) : BwdKind
  | exp (a : Nat) : BwdKind
deriving DecidableEq

/-- The node references a `_backward` closure writes gradient into
(the `self`/`other` objects captured by the source closure). -/
def refsOf : BwdKind → List Nat
  | .none => []
  | .add a b => [a, b]
  | .mul a b => [a, b]
  | .div a b => [a, b]
  | .divRaw a _ => [a]
  | .pow a b => [a, b]
  | .relu a => [a]
  | .sigmoid a => [a]
  | .tanh a => [a]
  | .leakyRelu _ a => [a]
  | .elu _ a => [a]
  | .exp a => [a]

/-- Does the closure come from `__truediv__` applied to a raw number?  Its
first statement evaluates `other.data` on a non-`Value`, raising. -/
def isRawDiv : BwdKind → Bool
  | .divRaw _ _ => true
  | _ => false

/-- One `Value` object: `data`, `grad`, `_op`, `_prev` (kept as the operand
tuple passed to `__init__`), and the installed `_backward` closure. -/
structure NodeRec where
  data : ℚ
  grad : ℚ
  op : String
  prev : List Nat
  bwd : BwdKind
deriving DecidableEq

instance : Inhabited NodeRec := ⟨⟨0, 0, "", [], .none⟩⟩

/-- The heap of allocated `Value` objects; a node reference is its index. -/
abbrev St := List NodeRec

/-- Dereference a node (indices out of range never occur on well-formed
states; they give the harmless default record). -/
def nodeAt (s : St) (i : Nat) : NodeRec := s.getD i default

/-- A raw numeric operand or an existing node, as received by the binary
dunder methods (`other` may be a number or a `Value`). -/
inductive Operand where
  | node (i : Nat) : Operand
  | raw (c : ℚ) : Operand

/-- `self.grad += d` (reads the current gradient and adds). -/
def addGrad (s : St) (i : Nat) (d : ℚ) : St :=
  s.set i { nodeAt s i with grad := (nodeAt s i).grad + d }

/-- `self.grad = x` (plain overwrite, used only for the root in `backward`). -/
def setGrad (s : St) (i : Nat) (x : ℚ) : St :=
  s.set i { nodeAt s i with grad := x }

/-- `out._backward = _backward` replacing a previously installed closure
(used by `__truediv__`, which overwrites the closure of the `*` result). -/
def setBwd (s : St) (i : Nat) (k : BwdKind) : St :=
  s.set i { nodeAt s i with bwd := k }

/-- Allocate a node: `Value.__init__` (grad 0, given `_prev` and `_op`)
followed by the `out._backward = _backward` assignment of the calling
method.  Returns the new heap and the reference to the new object. -/
def mkNode (s : St) (d : ℚ) (prev : List Nat) (op : String) (k : BwdKind) :
    St × Nat :=
  (s ++ [⟨d, 0, op, prev, k⟩], s.length)

namespace Value

/-- `Value(data)`: a leaf with no operands and the default no-op closure. -/
def init (s : St) (d : ℚ) : St × Nat := mkNode s d [] "" .none

/-- `__add__`: a raw `other` is wrapped by `Value(other)` first. -/
def add (s : St) (a : Nat) (other : Operand) : St × Nat :=
  match other with
  | .raw c =>
      let p := init s c
      mkNode p.1 ((nodeAt p.1 a).data + (nodeAt p.1 p.2).data) [a, p.2] "+"
        (.add a p.2)
  | .node b =>
      mkNode s ((nodeAt s a).data + (nodeAt s b).data) [a, b] "+" (.add a b)

/-- `__mul__`: a raw `other` is wrapped by `Value(other)` first. -/
def mul (s : St) (a : Nat) (other : Operand) : St × Nat :=
  match other with
  | .raw c =>
      let p := init s c
      mkNode p.1 ((nodeAt p.1 a).data * (nodeAt p.1 p.2).data) [a, p.2] "*"
        (.mul a p.2)
  | .node b =>
      mkNode s ((nodeAt s a).data * (nodeAt s b).data) [a, b] "*" (.mul a b)

/-- `__pow__`: a raw `other` is wrapped by `Value(other)` first; the forward
value is the float power `self.data ** other.data`. -/
def pow (P : Prims) (s : St) (a : Nat) (other : Operand) : St × Nat :=
  match other with
  | .raw c =>
      let p := init s c
      mkNode p.1 (P.pow (nodeAt p.1 a).data (nodeAt p.1 p.2).data) [a, p.2]
        "**" (.pow a p.2)
  | .node b =>
      mkNode s (P.pow (nodeAt s a).data (nodeAt s b).data) [a, b] "**"
        (.pow a b)

/-- `__truediv__`: `out = self * other ** -1`, after which `out._backward`
is overwritten with the direct-formula closure.  There is no `isinstance`
wrapping here: with a node operand, `other ** -1` builds a `**` node (whose
`__pow__` wraps the raw `-1`); with a raw operand, `other ** -1` is plain
number arithmetic (`c⁻¹`, defined for `c ≠ 0`; `c = 0` would raise
`ZeroDivisionError` in the source and is excluded by hypothesis wherever a
claim runs this path) and `self * c⁻¹` wraps it as a leaf.  Either way the
overwritten closure captures the original `other`, node or raw. -/
def truediv (P : Prims) (s : St) (a : Nat) (other : Operand) : St × Nat :=
  match other with
  | .raw c =>
      let m := mul s a (.raw c⁻¹)
      (setBwd m.1 m.2 (.divRaw a c), m.2)
  | .node b =>
      let p := pow P s b (.raw (-1))
      let m := mul p.1 a (.node p.2)
      (setBwd m.1 m.2 (.div a b), m.2)

/-- `relu`. -/
def relu (s : St) (a : Nat) : St × Nat :=
  mkNode s (if (nodeAt s a).data < 0 then 0 else (nodeAt s a).data) [a]
    "ReLU" (.relu a)

/-- `exp`: `math.exp(self.data)`. -/
def exp (P : Prims) (s : St) (a : Nat) : St × Nat :=
  mkNode s (P.exp (nodeAt s a).data) [a] "Exp" (.exp a)

/-- `__neg__`: `self * -1`. -/
def neg (s : St) (a : Nat) : St × Nat := mul s a (.raw (-1))

/-- `__sub__`: `self + (-other)`.  With a node operand, `-other` builds a
`*` node; with a raw operand, `-other` is plain number negation, which
`__add__` then wraps as a leaf. -/
def sub (s : St) (a : Nat) (other : Operand) : St × Nat :=
  match other with
  | .raw c => add s a (.raw (-c))
  | .node b =>
      let n := neg s b
      add n.1 a (.node n.2)

/-- `sigmoid`: the forward value `1 / (1 + (-self).exp().data)` allocates a
`Value(-1)` leaf and a `*` node (from `-self`) and an `Exp` node, none of
which are wired into the output: `out._prev` is `(self,)` alone. -/
def sigmoid (P : Prims) (s : St) (a : Nat) : St × Nat :=
  let n := neg s a
  let e := exp P n.1 n.2
  mkNode e.1 (1 / (1 + (nodeAt e.1 e.2).data)) [a] "Sigmoid" (.sigmoid a)

/-- `tanh`: the forward value `(2 / (1 + (-2 * self).exp().data)) - 1`;
`-2 * self` goes through `__rmul__`, i.e. `self * -2`, allocating a
`Value(-2)` leaf and a `*` node, then an `Exp` node; `out._prev` is
`(self,)` alone. -/
def tanh (P : Prims) (s : St) (a : Nat) : St × Nat :=
  let n := mul s a (.raw (-2))
  let e := exp P n.1 n.2
  mkNode e.1 (2 / (1 + (nodeAt e.1 e.2).data) - 1) [a] "Tanh" (.tanh a)

/-- `leaky_relu`. -/
def leakyRelu (s : St) (a : Nat) (alpha : ℚ) : St × Nat :=
  mkNode s
    (if (nodeAt s a).data < 0 then alpha * (nodeAt s a).data
     else (nodeAt s a).data)
    [a] "LeakyReLU" (.leakyRelu alpha a)

/-- `elu`: the conditional expression evaluates `self.exp()` (allocating an
`Exp` node that is not wired into the output) only when `self.data < 0`. -/
def elu (P : Prims) (s : St) (a : Nat) (alpha : ℚ) : St × Nat :=
  if (nodeAt s a).data < 0 then
    let e := exp P s a
    mkNode e.1 (alpha * ((nodeAt e.1 e.2).data - 1)) [a] "ELU" (.elu alpha a)
  else
    mkNode s (nodeAt s a).data [a] "ELU" (.elu alpha a)

end Value

/-- Run one `_backward` closure for node `v`, performing the source's reads
and gradient writes in order.  Each `x.grad += e` first evaluates `e` against
the current heap, then adds.  The `divRaw` closure evaluates `other.data` on
a raw number and raises. -/
def stepBwd (P : Prims) (s : St) (v : Nat) : Except String St :=
  match (nodeAt s v).bwd with
  | .none => .ok s
  | .add a b =>
      let s1 := addGrad s a (nodeAt s v).grad
      .ok (addGrad s1 b (nodeAt s1 v).grad)
  | .mul a b =>
      let s1 := addGrad s a ((nodeAt s b).data * (nodeAt s v).grad)
      .ok (addGrad s1 b ((nodeAt s1 a).data * (nodeAt s1 v).grad))
  | .div a b =>
      let s1 := addGrad s a ((nodeAt s v).grad / (nodeAt s b).data)
      .ok (addGrad s1 b
        (-((nodeAt s1 v).grad * (nodeAt s1 a).data / (nodeAt s1 b).data ^ 2)))
  | .divRaw _ _ => .error "AttributeError"
  | .pow a b =>
      let av := (nodeAt s a).data
      let bv := (nodeAt s b).data
      let ga := if av ≠ 0 then bv * P.pow av (bv - 1) else 0
      let gb := if 0 < av then P.pow av bv * P.log av else 0
      let s1 := addGrad s a (ga * (nodeAt s v).grad)
      .ok (addGrad s1 b (gb * (nodeAt s1 v).grad))
  | .relu a =>
      .ok (addGrad s a
        ((if 0 < (nodeAt s v).data then (1 : ℚ) else 0) * (nodeAt s v).grad))
  | .sigmoid a =>
      .ok (addGrad s a
        ((nodeAt s v).data * (1 - (nodeAt s v).data) * (nodeAt s v).grad))
  | .tanh a =>
      .ok (addGrad s a ((1 - (nodeAt s v).data ^ 2) * (nodeAt s v).grad))
  | .leakyRelu alpha a =>
      .ok (addGrad s a
        ((if (nodeAt s a).data < 0 then alpha else 1) * (nodeAt s v).grad))
  | .elu alpha a =>
      .ok (addGrad s a
        ((if (nodeAt s a).data < 0 then alpha * P.exp (nodeAt s v).data
          else 1) * (nodeAt s v).grad))
  | .exp a =>
      .ok (addGrad s a ((nodeAt s v).data * (nodeAt s v).grad))

/-- Traversal state of `build_topo`: the `visited` set and the `topo` list. -/
structure TS where
  visited : List Nat
  topo : List Nat
deriving DecidableEq

/-- `build_topo(v)`: depth-first, marks `v` visited, recurses into the
operands, then appends `v`.  The recursion of the source terminates because
the graph is acyclic; here acyclicity is concrete (every operand reference is
a strictly smaller index, nodes being allocated after their operands), so a
fuel of `v + 1` is always sufficient and the fuel branch is never hit on
well-formed states. -/
def buildTopo (s : St) : Nat → TS → Nat → TS
  | 0, t, _ => t
  | fuel + 1, t, v =>
      if v ∈ t.visited then t
      else
        let t2 := (nodeAt s v).prev.foldl (buildTopo s fuel)
          ⟨v :: t.visited, t.topo⟩
        ⟨t2.visited, t2.topo ++ [v]⟩

/-- The order in which `backward` invokes the `_backward` closures:
`reversed(topo)` for the post-order produced by `build_topo(self)`. -/
def execOrder (s : St) (root : Nat) : List Nat :=
  (buildTopo s (root + 1) ⟨[], []⟩ root).topo.reverse

/-- `for v in reversed(topo): v._backward()`, stopping at the first raised
exception. -/
def runSteps (P : Prims) : St → List Nat → Except String St
  | s, [] => .ok s
  | s, v :: vs =>
      match stepBwd P s v with
      | .error e => .error e
      | .ok s' => runSteps P s' vs

/-- `Value.backward`: build the topological order, set the root gradient to 1
(plain overwrite), then run the closures in reverse order. -/
def backward (P : Prims) (s : St) (root : Nat) : Except String St :=
  runSteps P (setGrad s root 1) (execOrder s root)

/-- Two consecutive `backward()` calls on the same root with no gradient
zeroing in between. -/
def backwardTwice (P : Prims) (s : St) (root : Nat) : Except String St :=
  (backward P s root).bind fun s' => backward P s' root

/-- The gradient of node `i` after `backward` on `root` (or the exception). -/
def gradAfter (P : Prims) (s : St) (root i : Nat) : Except String ℚ :=
  (backward P s root).map fun s' => (nodeAt s' i).grad

/-- The gradient of node `i` after two `backward` calls on `root`. -/
def gradAfterTwice (P : Prims) (s : St) (root i : Nat) : Except String ℚ :=
  (backwardTwice P s root).map fun s' => (nodeAt s' i).grad

/-- Structural well-formedness: every operand reference and every closure
reference points to a strictly earlier allocation.  This holds for every heap
built through the API (nodes are appended after their operands) and makes the
graph a DAG. -/
def WF (s : St) : Prop :=
  ∀ i, (∀ c ∈ (nodeAt s i).prev, c < i) ∧ (∀ c ∈ refsOf (nodeAt s i).bwd, c < i)

/-- Bounded executable check for `WF`. -/
def WFb (s : St) : Bool :=
  (List.range s.length).all fun i =>
    ((nodeAt s i).prev.all (· < i)) && ((refsOf (nodeAt s i).bwd).all (· < i))

/-- No node carries the broken raw-division closure. -/
def NoRaw (s : St) : Prop :=
  ∀ i, isRawDiv (nodeAt s i).bwd = false

/-- Bounded executable check for `NoRaw`. -/
def NoRawB (s : St) : Bool :=
  (List.range s.length).all fun i => !(isRawDiv (nodeAt s i).bwd)

/-- Graph reachability along `_prev` edges (the relation `build_topo`
traverses); `Reaches s u v` means `v` is `u` or lies upstream of `u`. -/
inductive Reaches (s : St) : Nat → Nat → Prop
  | refl (v : Nat) : Reaches s v v
  | tail {u v w : Nat} : Reaches s u v → w ∈ (nodeAt s v).prev → Reaches s u w

/-- Everything but the gradient: what `backward` must leave untouched. -/
def sameStruct (n m : NodeRec) : Prop :=
  n.data = m.data ∧ n.op = m.op ∧ n.prev = m.prev ∧ n.bwd = m.bwd

/-- The gradient contribution node `v`'s closure adds to node `i` (zero for
nodes the closure does not reference).  Duplicated references (e.g.
`x + x`, where `self` and `other` are the same object) contribute both
summands. -/
def contribAt (P : Prims) (s : St) (v i : Nat) : ℚ :=
  match (nodeAt s v).bwd with
  | .none => 0
  | .divRaw _ _ => 0
  | .add a b =>
      (if i = a then (nodeAt s v).grad else 0) +
      (if i = b then (nodeAt s v).grad else 0)
  | .mul a b =>
      (if i = a then (nodeAt s b).data * (nodeAt s v).grad else 0) +
      (if i = b then (nodeAt s a).data * (nodeAt s v).grad else 0)
  | .div a b =>
      (if i = a then (nodeAt s v).grad / (nodeAt s b).data else 0) +
      (if i = b then
        -((nodeAt s v).grad * (nodeAt s a).data / (nodeAt s b).data ^ 2)
       else 0)
  | .pow a b =>
      (if i = a then
        (if (nodeAt s a).data ≠ 0 then
          (nodeAt s b).data * P.pow (nodeAt s a).data ((nodeAt s b).data - 1)
         else 0) * (nodeAt s v).grad
       else 0) +
      (if i = b then
        (if 0 < (nodeAt s a).data then
          P.pow (nodeAt s a).data (nodeAt s b).data * P.log (nodeAt s a).data
         else 0) * (nodeAt s v).grad
       else 0)
  | .relu a =>
      if i = a then
        (if 0 < (nodeAt s v).data then (1 : ℚ) else 0) * (nodeAt s v).grad
      else 0
  | .sigmoid a =>
      if i = a then
        (nodeAt s v).data * (1 - (nodeAt s v).data) * (nodeAt s v).grad
      else 0
  | .tanh a =>
      if i = a then (1 - (nodeAt s v).data ^ 2) * (nodeAt s v).grad else 0
  | .leakyRelu alpha a =>
      if i = a then
        (if (nodeAt s a).data < 0 then alpha else 1) * (nodeAt s v).grad
      else 0
  | .elu alpha a =>
      if i = a then
        (if (nodeAt s a).data < 0 then alpha * P.exp (nodeAt s v).data
         else 1) * (nodeAt s v).grad
      else 0
  | .exp a =>
      if i = a then (nodeAt s v).data * (nodeAt s v).grad else 0

/-- Iterated rational product (used only to build a concrete `Prims`). -/
def qpowNat (a : ℚ) : Nat → ℚ
  | 0 => 1
  | n + 1 => qpowNat a n * a

/-- Exact rational power at an integer exponent. -/
def qpowInt (a : ℚ) : Int → ℚ
  | .ofNat n => qpowNat a n
  | .negSucc n => (qpowNat a (n + 1))⁻¹

/-- A fixed interpretation of the primitives for concrete test graphs:
`pow` is exact rational power at integer exponents (the only exponents the
concrete claims use); `exp` and `log` are irrelevant to those claims and
interpreted as 0. -/
def P0 : Prims :=
  ⟨fun _ => 0, fun _ => 0, fun a b => if b.den = 1 then qpowInt a b.num else 0⟩

/-! ### Basic heap lemmas -/

theorem nodeAt_default {s : St} {i : Nat} (h : s.length ≤ i) :
    nodeAt s i = default :=
  List.getD_eq_default _ _ h

@[simp] theorem length_addGrad (s : St) (i : Nat) (d : ℚ) :
    (addGrad s i d).length = s.length := List.length_set ..

@[simp] theorem length_setGrad (s : St) (i : Nat) (x : ℚ) :
    (setGrad s i x).length = s.length := List.length_set ..

@[simp] theorem length_setBwd (s : St) (i : Nat) (k : BwdKind) :
    (setBwd s i k).length = s.length := List.length_set ..

theorem nodeAt_set_self {s : St} {i : Nat} {n : NodeRec} (h : i < s.length) :
    nodeAt (s.set i n) i = n := by
  simp [nodeAt, List.getD, List.getElem?_set_self', h]

theorem nodeAt_set_ne {s : St} {i j : Nat} {n : NodeRec} (h : j ≠ i) :
    nodeAt (s.set i n) j = nodeAt s j := by
  simp [nodeAt, List.getD, List.getElem?_set_ne (Ne.symm h)]

theorem nodeAt_set_of_ge {s : St} {i j : Nat} {n : NodeRec}
    (h : s.length ≤ i) : nodeAt (s.set i n) j = nodeAt s j := by
  rw [List.set_eq_of_length_le h]

theorem addGrad_grad (s : St) (i : Nat) (d : ℚ) (j : Nat) :
    (nodeAt (addGrad s i d) j).grad =
      (nodeAt s j).grad + if j = i ∧ i < s.length then d else 0 := by
  by_cases hl : i < s.length
  · by_cases hj : j = i
    · subst hj; rw [addGrad, nodeAt_set_self hl]; simp [hl]
    · rw [addGrad, nodeAt_set_ne hj]; simp [hj]
  · rw [addGrad, nodeAt_set_of_ge (Nat.le_of_not_lt hl)]; simp [hl]

theorem addGrad_sameStruct (s : St) (i : Nat) (d : ℚ) (j : Nat) :
    sameStruct (nodeAt (addGrad s i d) j) (nodeAt s j) := by
  by_cases hl : i < s.length
  · by_cases hj : j = i
    · subst hj; rw [addGrad, nodeAt_set_self hl]
      exact ⟨rfl, rfl, rfl, rfl⟩
    · rw [addGrad, nodeAt_set_ne hj]; exact ⟨rfl, rfl, rfl, rfl⟩
  · rw [addGrad, nodeAt_set_of_ge (Nat.le_of_not_lt hl)]
    exact ⟨rfl, rfl, rfl, rfl⟩

theorem setGrad_grad (s : St) (i : Nat) (x : ℚ) (j : Nat) :
    (nodeAt (setGrad s i x) j).grad =
      if j = i ∧ i < s.length then x else (nodeAt s j).grad := by
  by_cases hl : i < s.length
  · by_cases hj : j = i
    · subst hj; rw [setGrad, nodeAt_set_self hl]; simp [hl]
    · rw [setGrad, nodeAt_set_ne hj]; simp [hj]
  · rw [setGrad, nodeAt_set_of_ge (Nat.le_of_not_lt hl)]; simp [hl]

theorem setGrad_sameStruct (s : St) (i : Nat) (x : ℚ) (j : Nat) :
    sameStruct (nodeAt (setGrad s i x) j) (nodeAt s j) := by
  by_cases hl : i < s.length
  · by_cases hj : j = i
    · subst hj; rw [setGrad, nodeAt_set_self hl]
      exact ⟨rfl, rfl, rfl, rfl⟩
    · rw [setGrad, nodeAt_set_ne hj]; exact ⟨rfl, rfl, rfl, rfl⟩
  · rw [setGrad, nodeAt_set_of_ge (Nat.le_of_not_lt hl)]
    exact ⟨rfl, rfl, rfl, rfl⟩

theorem nodeAt_setBwd_self {s : St} {i : Nat} {k : BwdKind}
    (h : i < s.length) :
    nodeAt (setBwd s i k) i = { nodeAt s i with bwd := k } :=
  nodeAt_set_self h

theorem nodeAt_setBwd_ne {s : St} {i j : Nat} {k : BwdKind} (h : j ≠ i) :
    nodeAt (setBwd s i k) j = nodeAt s j :=
  nodeAt_set_ne h

@[simp] theorem mkNode_snd (s : St) (d : ℚ) (p : List Nat) (o : String)
    (k : BwdKind) : (mkNode s d p o k).2 = s.length := rfl

@[simp] theorem mkNode_length (s : St) (d : ℚ) (p : List Nat) (o : String)
    (k : BwdKind) : (mkNode s d p o k).1.length = s.length + 1 := by
  simp [mkNode]

theorem nodeAt_mkNode_self (s : St) (d : ℚ) (p : List Nat) (o : String)
    (k : BwdKind) : nodeAt (mkNode s d p o k).1 s.length = ⟨d, 0, o, p, k⟩ := by
  simp [mkNode, nodeAt, List.getD, List.getElem?_append_right (Nat.le_refl _)]

theorem nodeAt_mkNode_ne {s : St} {j : Nat} (d : ℚ) (p : List Nat)
    (o : String) (k : BwdKind) (h : j ≠ s.length) :
    nodeAt (mkNode s d p o k).1 j = nodeAt s j := by
  rcases Nat.lt_or_ge j s.length with hj | hj
  · simp [mkNode, nodeAt, List.getD, List.getElem?_append, hj]
  · have hj' : s.length < j := Nat.lt_of_le_of_ne hj (Ne.symm h)
    rw [nodeAt_default (s := s) hj]
    refine nodeAt_default ?_
    simpa [mkNode] using hj'

/-! ### Well-formedness -/

theorem WF_of_WFb {s : St} (h : WFb s = true) : WF s := by
  intro i
  rcases Nat.lt_or_ge i s.length with hi | hi
  · have := List.all_eq_true.1 h i (List.mem_range.2 hi)
    rw [Bool.and_eq_true] at this
    rcases this with ⟨h1, h2⟩
    exact ⟨fun c hc => by simpa using List.all_eq_true.1 h1 c hc,
           fun c hc => by simpa using List.all_eq_true.1 h2 c hc⟩
  · rw [nodeAt_default hi]
    exact ⟨fun c hc => by simp [default] at hc,
           fun c hc => by simp [default, refsOf] at hc⟩

theorem NoRaw_of_NoRawB {s : St} (h : NoRawB s = true) : NoRaw s := by
  intro i
  rcases Nat.lt_or_ge i s.length with hi | hi
  · have := List.all_eq_true.1 h i (List.mem_range.2 hi)
    simpa using this
  · rw [nodeAt_default hi]; rfl

theorem WF_nil : WF ([] : St) := by
  intro i
  rw [nodeAt_default (by simp)]
  exact ⟨fun c hc => by simp [default] at hc,
         fun c hc => by simp [default, refsOf] at hc⟩

theorem WF_mkNode {s : St} {d : ℚ} {p : List Nat} {o : String} {k : BwdKind}
    (hwf : WF s) (hp : ∀ c ∈ p, c < s.length)
    (hk : ∀ c ∈ refsOf k, c < s.length) : WF (mkNode s d p o k).1 := by
  intro i
  by_cases hi : i = s.length
  · subst hi; rw [nodeAt_mkNode_self]
    exact ⟨hp, hk⟩
  · rw [nodeAt_mkNode_ne _ _ _ _ hi]; exact hwf i

theorem WF_setBwd {s : St} {i : Nat} {k : BwdKind} (hwf : WF s)
    (hk : ∀ c ∈ refsOf k, c < i) : WF (setBwd s i k) := by
  intro j
  rcases Nat.lt_or_ge i s.length with hl | hl
  · by_cases hj : j = i
    · subst hj; rw [nodeAt_setBwd_self hl]
      exact ⟨(hwf j).1, hk⟩
    · rw [nodeAt_setBwd_ne hj]; exact hwf j
  · rw [setBwd, nodeAt_set_of_ge hl]; exact hwf j

/-! ### Reachability lemmas -/

theorem Reaches.trans {s : St} {u v w : Nat} (h1 : Reaches s u v)
    (h2 : Reaches s v w) : Reaches s u w := by
  induction h2 with
  | refl => exact h1
  | tail _ hw ih => exact ih.tail hw

theorem Reaches_le {s : St} (hwf : WF s) {u v : Nat} (h : Reaches s u v) :
    v ≤ u := by
  induction h with
  | refl => exact Nat.le_refl _
  | tail _ hw ih =>
      exact Nat.le_trans (Nat.le_of_lt ((hwf _).1 _ hw)) ih

theorem Reaches_head {s : St} {u v : Nat} (h : Reaches s u v) :
    v = u ∨ ∃ c ∈ (nodeAt s u).prev, Reaches s c v := by
  induction h with
  | refl => exact Or.inl rfl
  | tail _ hw ih =>
      rename_i x y _
      rcases ih with heq | ⟨c, hc, hcv⟩
      · subst heq; exact Or.inr ⟨y, hw, Reaches.refl y⟩
      · exact Or.inr ⟨c, hc, hcv.tail hw⟩

/-! ### Specification of the depth-first post-order traversal -/

/-- A list is in topological order for `s`: wherever a node occurs, all of
its operands occur strictly earlier. -/
def TopoOrd (s : St) (l : List Nat) : Prop :=
  ∀ l1 u l2, l = l1 ++ u :: l2 → ∀ c ∈ (nodeAt s u).prev, c ∈ l1

/-- Invariant of the traversal state. -/
structure TInv (s : St) (t : TS) : Prop where
  nodup : t.topo.Nodup
  sub : ∀ x ∈ t.topo, x ∈ t.visited
  closed : ∀ u ∈ t.topo, ∀ c ∈ (nodeAt s u).prev, c ∈ t.topo
  ord : TopoOrd s t.topo

/-- Everything one call `build_topo(v)` guarantees. -/
structure TStep (s : St) (t t' : TS) (v : Nat) : Prop where
  inv : TInv s t'
  topoExt : ∃ d, t'.topo = t.topo ++ d
  visMono : ∀ x ∈ t.visited, x ∈ t'.visited
  noNewPending : ∀ x ∈ t'.visited, x ∈ t.visited ∨ x ∈ t'.topo
  vIn : v ∈ t'.topo
  newReach : ∀ x ∈ t'.topo, x ∈ t.topo ∨ Reaches s v x
  reachDone : ∀ x, Reaches s v x → x ∈ t'.topo
  newFresh : ∀ x ∈ t'.topo, x ∉ t.topo → x ∉ t.visited

/-- Everything the loop over a list of operands guarantees. -/
structure TSteps (s : St) (t t' : TS) (cs : List Nat) : Prop where
  inv : TInv s t'
  topoExt : ∃ d, t'.topo = t.topo ++ d
  visMono : ∀ x ∈ t.visited, x ∈ t'.visited
  noNewPending : ∀ x ∈ t'.visited, x ∈ t.visited ∨ x ∈ t'.topo
  allIn : ∀ c ∈ cs, c ∈ t'.topo
  newReach : ∀ x ∈ t'.topo, x ∈ t.topo ∨ ∃ c ∈ cs, Reaches s c x
  reachDone : ∀ c ∈ cs, ∀ x, Reaches s c x → x ∈ t'.topo
  newFresh : ∀ x ∈ t'.topo, x ∉ t.topo → x ∉ t.visited

theorem append_singleton_split {l l1 l2 : List Nat} {u v : Nat}
    (h : l ++ [v] = l1 ++ u :: l2) :
    (∃ l2', l = l1 ++ u :: l2' ∧ l2 = l2' ++ [v]) ∨
    (l1 = l ∧ u = v ∧ l2 = []) := by
  rcases List.eq_nil_or_concat l2 with h2 | ⟨L, y, h2⟩
  · subst h2
    have h' := List.append_inj' h (by rfl)
    have huv : v = u := by simpa using h'.2
    exact Or.inr ⟨h'.1.symm, huv.symm, rfl⟩
  · subst h2
    simp only [List.concat_eq_append] at h ⊢
    rw [show l1 ++ u :: (L ++ [y]) = (l1 ++ u :: L) ++ [y] by simp] at h
    have h' := List.append_inj' h (by rfl)
    refine Or.inl ⟨L, h'.1, ?_⟩
    have hvy : v = y := by simpa using h'.2
    rw [hvy]

theorem TopoOrd_append_singleton {s : St} {l : List Nat} {v : Nat}
    (h : TopoOrd s l) (hv : ∀ c ∈ (nodeAt s v).prev, c ∈ l) :
    TopoOrd s (l ++ [v]) := by
  intro l1 u l2 hsplit c hc
  rcases append_singleton_split hsplit with ⟨l2', hl, _⟩ | ⟨hl, hu, _⟩
  · exact h l1 u l2' hl c hc
  · subst hu; rw [hl]; exact hv c hc

theorem mem_topo_of_reaches {s : St} {l : List Nat} {v : Nat}
    (hclosed : ∀ u ∈ l, ∀ c ∈ (nodeAt s u).prev, c ∈ l) (hv : v ∈ l) :
    ∀ x, Reaches s v x → x ∈ l := by
  intro x hx
  induction hx with
  | refl => exact hv
  | tail _ hw ih => exact hclosed _ ih _ hw

theorem buildTopo_spec (s : St) (hwf : WF s) :
    ∀ fuel v t, v < fuel → TInv s t →
      (∀ x ∈ t.visited, x ∉ t.topo → v < x) →
      TStep s t (buildTopo s fuel t v) v := by
  intro fuel
  induction fuel with
  | zero => intro v t hv; exact absurd hv (Nat.not_lt_zero v)
  | succ fuel IH =>
    -- the loop over the operand list, for the given fuel
    have inner : ∀ cs t, (∀ c ∈ cs, c < fuel) → TInv s t →
        (∀ c ∈ cs, ∀ x ∈ t.visited, x ∉ t.topo → c < x) →
        TSteps s t (cs.foldl (buildTopo s fuel) t) cs := by
      intro cs
      induction cs with
      | nil =>
          intro t _ hinv _
          exact ⟨hinv, ⟨[], by simp⟩, fun x hx => hx, fun x hx => Or.inl hx,
            fun c hc => absurd hc (List.not_mem_nil c),
            fun x hx => Or.inl hx,
            fun c hc => absurd hc (List.not_mem_nil c),
            fun x hx hnx => absurd hx hnx⟩
      | cons c cs ihcs =>
          intro t hbound hinv hpend
          have step : TStep s t (buildTopo s fuel t c) c :=
            IH c t (hbound c (List.mem_cons_self c cs)) hinv
              (hpend c (List.mem_cons_self c cs))
          set t2 := buildTopo s fuel t c with ht2
          have pend2 : ∀ x ∈ t2.visited, x ∉ t2.topo → x ∈ t.visited ∧ x ∉ t.topo := by
            intro x hx hnx
            rcases step.noNewPending x hx with h | h
            · refine ⟨h, fun hxt => hnx ?_⟩
              rcases step.topoExt with ⟨d, hd⟩
              rw [hd]; exact List.mem_append_left d hxt
            · exact absurd h hnx
          have rest : TSteps s t2 (cs.foldl (buildTopo s fuel) t2) cs := by
            refine ihcs t2 (fun c' hc' => hbound c' (List.mem_cons_of_mem c hc'))
              step.inv ?_
            intro c' hc' x hx hnx
            have := pend2 x hx hnx
            exact hpend c' (List.mem_cons_of_mem c hc') x this.1 this.2
          rw [List.foldl_cons, ← ht2]
          set t3 := cs.foldl (buildTopo s fuel) t2 with ht3
          rcases step.topoExt with ⟨d1, hd1⟩
          rcases rest.topoExt with ⟨d2, hd2⟩
          refine ⟨rest.inv, ⟨d1 ++ d2, by rw [hd2, hd1, List.append_assoc]⟩,
            fun x hx => rest.visMono x (step.visMono x hx), ?_, ?_, ?_, ?_, ?_⟩
          · intro x hx
            rcases rest.noNewPending x hx with h | h
            · rcases step.noNewPending x h with h' | h'
              · exact Or.inl h'
              · refine Or.inr ?_
                rw [hd2]; exact List.mem_append_left d2 h'
            · exact Or.inr h
          · intro c' hc'
            rcases List.mem_cons.1 hc' with rfl | hc'
            · rw [hd2]; exact List.mem_append_left d2 step.vIn
            · exact rest.allIn c' hc'
          · intro x hx
            rcases rest.newReach x hx with h | ⟨c', hc', hr⟩
            · rcases step.newReach x h with h' | h'
              · exact Or.inl h'
              · exact Or.inr ⟨c, List.mem_cons_self c cs, h'⟩
            · exact Or.inr ⟨c', List.mem_cons_of_mem c hc', hr⟩
          · intro c' hc' x hr
            rcases List.mem_cons.1 hc' with rfl | hc'
            · rw [hd2]; exact List.mem_append_left d2 (step.reachDone x hr)
            · exact rest.reachDone c' hc' x hr
          · intro x hx hnx
            by_cases hx2 : x ∈ t2.topo
            · exact step.newFresh x hx2 hnx
            · intro hxv
              exact rest.newFresh x hx hx2 (step.visMono x hxv)
    -- the body of build_topo(v)
    intro v t hv hinv hpend
    rw [buildTopo]
    by_cases hvis : v ∈ t.visited
    · simp only [hvis, if_true]
      have hvt : v ∈ t.topo := by
        by_contra hnv
        exact Nat.lt_irrefl v (hpend v hvis hnv)
      exact ⟨hinv, ⟨[], by simp⟩, fun x hx => hx, fun x hx => Or.inl hx, hvt,
        fun x hx => Or.inl hx,
        mem_topo_of_reaches hinv.closed hvt,
        fun x hx hnx => absurd hx hnx⟩
    · simp only [hvis, if_false]
      set t1 : TS := ⟨v :: t.visited, t.topo⟩ with ht1
      have hinv1 : TInv s t1 := ⟨hinv.nodup,
        fun x hx => List.mem_cons_of_mem v (hinv.sub x hx),
        hinv.closed, hinv.ord⟩
      have hbound : ∀ c ∈ (nodeAt s v).prev, c < fuel := by
        intro c hc
        exact Nat.lt_of_lt_of_le ((hwf v).1 c hc) (Nat.lt_succ_iff.1 hv)
      have hpend1 : ∀ c ∈ (nodeAt s v).prev, ∀ x ∈ t1.visited,
          x ∉ t1.topo → c < x := by
        intro c hc x hx hnx
        rcases List.mem_cons.1 hx with hxv | hx'
        · rw [hxv]; exact (hwf v).1 c hc
        · exact Nat.lt_trans ((hwf v).1 c hc) (hpend x hx' hnx)
      have steps : TSteps s t1 ((nodeAt s v).prev.foldl (buildTopo s fuel) t1)
          (nodeAt s v).prev := inner (nodeAt s v).prev t1 hbound hinv1 hpend1
      set t2 := (nodeAt s v).prev.foldl (buildTopo s fuel) t1 with ht2
      rcases steps.topoExt with ⟨d, hd⟩
      have hvt2 : v ∉ t2.topo := by
        intro hvt2
        by_cases hvt : v ∈ t.topo
        · exact hvis (hinv.sub v hvt)
        · exact steps.newFresh v hvt2 hvt (List.mem_cons_self v t.visited)
      have topo_sub : ∀ x ∈ t2.topo, x ∈ t2.topo ++ [v] :=
        fun x hx => List.mem_append_left [v] hx
      refine ⟨⟨?_, ?_, ?_, ?_⟩, ⟨d ++ [v], by simp [hd]⟩, ?_, ?_, ?_, ?_, ?_, ?_⟩
      · rw [List.nodup_append]
        exact ⟨steps.inv.nodup, List.nodup_singleton v,
          fun x hx hxv => hvt2 (by rwa [List.mem_singleton.1 hxv] at hx)⟩
      · intro x hx
        rcases List.mem_append.1 hx with hx | hx
        · exact steps.inv.sub x hx
        · rw [List.mem_singleton.1 hx]
          exact steps.visMono v (List.mem_cons_self v t.visited)
      · intro u hu c hc
        rcases List.mem_append.1 hu with hu | hu
        · exact topo_sub c (steps.inv.closed u hu c hc)
        · rw [List.mem_singleton.1 hu] at hc
          exact topo_sub c (steps.allIn c hc)
      · exact TopoOrd_append_singleton steps.inv.ord steps.allIn
      · intro x hx
        exact steps.visMono x (List.mem_cons_of_mem v hx)
      · intro x hx
        rcases steps.noNewPending x hx with h | h
        · rcases List.mem_cons.1 h with rfl | h'
          · exact Or.inr (List.mem_append_right _ (List.mem_singleton_self x))
          · exact Or.inl h'
        · exact Or.inr (topo_sub x h)
      · exact List.mem_append_right _ (List.mem_singleton_self v)
      · intro x hx
        rcases List.mem_append.1 hx with hx | hx
        · rcases steps.newReach x hx with h | ⟨c, hc, hr⟩
          · exact Or.inl h
          · exact Or.inr (Reaches.trans ((Reaches.refl v).tail hc) hr)
        · rw [List.mem_singleton.1 hx]
          exact Or.inr (Reaches.refl v)
      · intro x hr
        rcases Reaches_head hr with rfl | ⟨c, hc, hcx⟩
        · exact List.mem_append_right _ (List.mem_singleton_self x)
        · exact topo_sub x (steps.reachDone c hc x hcx)
      · intro x hx hnx
        rcases List.mem_append.1 hx with hx | hx
        · intro hxv
          exact steps.newFresh x hx hnx (List.mem_cons_of_mem v hxv)
        · rw [List.mem_singleton.1 hx]
          exact hvis

/-- The traversal from the root, started on empty state. -/
theorem execOrder_tstep (s : St) (hwf : WF s) (root : Nat) :
    TStep s ⟨[], []⟩ (buildTopo s (root + 1) ⟨[], []⟩ root) root := by
  refine buildTopo_spec s hwf (root + 1) root ⟨[], []⟩ (Nat.lt_succ_self root)
    ⟨List.nodup_nil, ?_, ?_, ?_⟩ ?_
  · intro x hx; exact absurd hx (List.not_mem_nil x)
  · intro u hu; exact absurd hu (List.not_mem_nil u)
  · intro l1 u l2 h
    exact absurd h (by simp)
  · intro x hx; exact absurd hx (List.not_mem_nil x)

theorem execOrder_nodup {s : St} (hwf : WF s) (root : Nat) :
    (execOrder s root).Nodup :=
  List.nodup_reverse.2 (execOrder_tstep s hwf root).inv.nodup

theorem mem_execOrder {s : St} (hwf : WF s) {root v : Nat} :
    v ∈ execOrder s root ↔ Reaches s root v := by
  rw [execOrder, List.mem_reverse]
  constructor
  · intro hv
    rcases (execOrder_tstep s hwf root).newReach v hv with h | h
    · exact absurd h (List.not_mem_nil v)
    · exact h
  · exact (execOrder_tstep s hwf root).reachDone v

theorem execOrder_le {s : St} (hwf : WF s) {root v : Nat}
    (hv : v ∈ execOrder s root) : v ≤ root :=
  Reaches_le hwf ((mem_execOrder hwf).1 hv)

/-- In the execution order, every (graph-)consumer of a node runs strictly
before the node itself. -/
theorem execOrder_consumers_first {s : St} (hwf : WF s) (root : Nat) :
    ∀ l1 v l2, execOrder s root = l1 ++ v :: l2 →
      ∀ u ∈ execOrder s root, v ∈ (nodeAt s u).prev → u ∈ l1 := by
  intro l1 v l2 hsplit u hu hv
  have hT : (buildTopo s (root + 1) ⟨[], []⟩ root).topo =
      l2.reverse ++ v :: l1.reverse := by
    have := congrArg List.reverse hsplit
    rw [execOrder, List.reverse_reverse] at this
    rw [this]; simp
  have hnodup := (execOrder_tstep s hwf root).inv.nodup
  have hord := (execOrder_tstep s hwf root).inv.ord
  have huT : u ∈ (buildTopo s (root + 1) ⟨[], []⟩ root).topo := by
    rw [← List.mem_reverse]; exact hu
  rw [hT] at huT hnodup
  rcases List.mem_append.1 huT with huL | huR
  · rcases List.append_of_mem huL with ⟨A, B, hAB⟩
    have hT2 : (buildTopo s (root + 1) ⟨[], []⟩ root).topo =
        A ++ u :: (B ++ v :: l1.reverse) := by
      rw [hT, hAB]; simp
    have hvA : v ∈ A := hord A u (B ++ v :: l1.reverse) hT2 v hv
    rw [hAB] at hnodup
    have hnd2 : (A ++ u :: (B ++ v :: l1.reverse)).Nodup := by
      simpa using hnodup
    have hdisj := (List.nodup_append.1 hnd2).2.2
    exact absurd (hdisj hvA (by simp)) (by simp)
  · rcases List.mem_cons.1 huR with huv | huL1
    · exfalso
      rw [huv] at hv
      exact Nat.lt_irrefl v ((hwf v).1 v hv)
    · exact List.mem_reverse.1 huL1

/-! ### One closure run as a pure gradient accumulation -/

theorem sameStruct_rfl (n : NodeRec) : sameStruct n n := ⟨rfl, rfl, rfl, rfl⟩

theorem sameStruct_trans {n m k : NodeRec} (h1 : sameStruct n m)
    (h2 : sameStruct m k) : sameStruct n k :=
  ⟨h1.1.trans h2.1, h1.2.1.trans h2.2.1, h1.2.2.1.trans h2.2.2.1,
   h1.2.2.2.trans h2.2.2.2⟩

theorem one_write {s : St} {a : Nat} (δ : ℚ) (ha : a < s.length) (i : Nat) :
    (nodeAt (addGrad s a δ) i).grad =
      (nodeAt s i).grad + (if i = a then δ else 0) := by
  rw [addGrad_grad]; simp [ha]

theorem two_writes {s : St} {a b : Nat} (δ1 δ2 : ℚ) (ha : a < s.length)
    (hb : b < s.length) (i : Nat) :
    (nodeAt (addGrad (addGrad s a δ1) b δ2) i).grad =
      (nodeAt s i).grad +
        ((if i = a then δ1 else 0) + (if i = b then δ2 else 0)) := by
  rw [addGrad_grad, addGrad_grad]
  simp [ha, hb, add_assoc]

theorem two_writes_struct (s : St) (a b : Nat) (δ1 δ2 : ℚ) (i : Nat) :
    sameStruct (nodeAt (addGrad (addGrad s a δ1) b δ2) i) (nodeAt s i) :=
  sameStruct_trans (addGrad_sameStruct _ _ _ _) (addGrad_sameStruct _ _ _ _)

theorem bwd_lt_length {s : St} {v : Nat} {K : BwdKind}
    (hk : (nodeAt s v).bwd = K) (hK : K ≠ .none) : v < s.length := by
  by_contra h
  rw [nodeAt_default (Nat.le_of_not_lt h)] at hk
  exact hK hk.symm

/-- Running the `_backward` closure of `v` never raises (except for the
broken raw-division closure), changes no `data`, `_op`, `_prev` or closure
field, and adds exactly `contribAt` to every gradient. -/
theorem stepBwd_ok (P : Prims) {s : St} {v : Nat} (hwf : WF s)
    (hnr : isRawDiv (nodeAt s v).bwd = false) :
    ∃ s', stepBwd P s v = .ok s' ∧ s'.length = s.length ∧
      (∀ i, sameStruct (nodeAt s' i) (nodeAt s i)) ∧
      (∀ i, (nodeAt s' i).grad = (nodeAt s i).grad + contribAt P s v i) := by
  cases hk : (nodeAt s v).bwd with
  | none =>
      refine ⟨s, by simp only [stepBwd, hk], rfl, fun i => sameStruct_rfl _,
        fun i => by simp only [contribAt, hk]; ring⟩
  | divRaw a c => rw [hk] at hnr; simp [isRawDiv] at hnr
  | add a b =>
      have hvlen : v < s.length := bwd_lt_length hk (by simp)
      have ha : a < v := (hwf v).2 a (by rw [hk]; simp [refsOf])
      have hb : b < v := (hwf v).2 b (by rw [hk]; simp [refsOf])
      have ha' : a < s.length := Nat.lt_trans ha hvlen
      have hb' : b < s.length := Nat.lt_trans hb hvlen
      have hgv : (nodeAt (addGrad s a (nodeAt s v).grad) v).grad =
          (nodeAt s v).grad := by
        rw [addGrad_grad]; simp [(Nat.ne_of_lt ha).symm]
      have hstep : stepBwd P s v = .ok (addGrad (addGrad s a (nodeAt s v).grad)
          b (nodeAt s v).grad) := by
        simp only [stepBwd, hk, hgv]
      refine ⟨_, hstep, by simp, fun i => two_writes_struct .., fun i => ?_⟩
      rw [two_writes _ _ ha' hb']
      simp only [contribAt, hk]
  | mul a b =>
      have hvlen : v < s.length := bwd_lt_length hk (by simp)
      have ha : a < v := (hwf v).2 a (by rw [hk]; simp [refsOf])
      have hb : b < v := (hwf v).2 b (by rw [hk]; simp [refsOf])
      have ha' : a < s.length := Nat.lt_trans ha hvlen
      have hb' : b < s.length := Nat.lt_trans hb hvlen
      have hgv : (nodeAt (addGrad s a ((nodeAt s b).data * (nodeAt s v).grad))
          v).grad = (nodeAt s v).grad := by
        rw [addGrad_grad]; simp [(Nat.ne_of_lt ha).symm]
      have hda : (nodeAt (addGrad s a ((nodeAt s b).data * (nodeAt s v).grad))
          a).data = (nodeAt s a).data := (addGrad_sameStruct _ _ _ _).1
      have hstep : stepBwd P s v =
          .ok (addGrad (addGrad s a ((nodeAt s b).data * (nodeAt s v).grad))
            b ((nodeAt s a).data * (nodeAt s v).grad)) := by
        simp only [stepBwd, hk, hgv, hda]
      refine ⟨_, hstep, by simp, fun i => two_writes_struct .., fun i => ?_⟩
      rw [two_writes _ _ ha' hb']
      simp only [contribAt, hk]
  | div a b =>
      have hvlen : v < s.length := bwd_lt_length hk (by simp)
      have ha : a < v := (hwf v).2 a (by rw [hk]; simp [refsOf])
      have hb : b < v := (hwf v).2 b (by rw [hk]; simp [refsOf])
      have ha' : a < s.length := Nat.lt_trans ha hvlen
      have hb' : b < s.length := Nat.lt_trans hb hvlen
      have hgv : (nodeAt (addGrad s a ((nodeAt s v).grad / (nodeAt s b).data))
          v).grad = (nodeAt s v).grad := by
        rw [addGrad_grad]; simp [(Nat.ne_of_lt ha).symm]
      have hda : (nodeAt (addGrad s a ((nodeAt s v).grad / (nodeAt s b).data))
          a).data = (nodeAt s a).data := (addGrad_sameStruct _ _ _ _).1
      have hdb : (nodeAt (addGrad s a ((nodeAt s v).grad / (nodeAt s b).data))
          b).data = (nodeAt s b).data := (addGrad_sameStruct _ _ _ _).1
      have hstep : stepBwd P s v =
          .ok (addGrad (addGrad s a ((nodeAt s v).grad / (nodeAt s b).data))
            b (-((nodeAt s v).grad * (nodeAt s a).data /
                 (nodeAt s b).data ^ 2))) := by
        simp only [stepBwd, hk, hgv, hda, hdb]
      refine ⟨_, hstep, by simp, fun i => two_writes_struct .., fun i => ?_⟩
      rw [two_writes _ _ ha' hb']
      simp only [contribAt, hk]
  | pow a b =>
      have hvlen : v < s.length := bwd_lt_length hk (by simp)
      have ha : a < v := (hwf v).2 a (by rw [hk]; simp [refsOf])
      have hb : b < v := (hwf v).2 b (by rw [hk]; simp [refsOf])
      have ha' : a < s.length := Nat.lt_trans ha hvlen
      have hb' : b < s.length := Nat.lt_trans hb hvlen
      have hgv : ∀ δ : ℚ, (nodeAt (addGrad s a δ) v).grad =
          (nodeAt s v).grad := by
        intro δ; rw [addGrad_grad]; simp [(Nat.ne_of_lt ha).symm]
      have hstep : stepBwd P s v =
          .ok (addGrad (addGrad s a
            ((if (nodeAt s a).data ≠ 0 then
                (nodeAt s b).data *
                  P.pow (nodeAt s a).data ((nodeAt s b).data - 1)
              else 0) * (nodeAt s v).grad))
            b ((if 0 < (nodeAt s a).data then
                  P.pow (nodeAt s a).data (nodeAt s b).data *
                    P.log (nodeAt s a).data
                else 0) * (nodeAt s v).grad)) := by
        simp only [stepBwd, hk, hgv]
      refine ⟨_, hstep, by simp, fun i => two_writes_struct .., fun i => ?_⟩
      rw [two_writes _ _ ha' hb']
      simp only [contribAt, hk]
  | relu a =>
      have hvlen : v < s.length := bwd_lt_length hk (by simp)
      have ha : a < v := (hwf v).2 a (by rw [hk]; simp [refsOf])
      have ha' : a < s.length := Nat.lt_trans ha hvlen
      refine ⟨addGrad s a ((if 0 < (nodeAt s v).data then (1 : ℚ) else 0) * (nodeAt s v).grad),
        by simp only [stepBwd, hk], by simp,
        fun i => addGrad_sameStruct .., fun i => ?_⟩
      rw [one_write _ ha']
      simp only [contribAt, hk]
  | sigmoid a =>
      have hvlen : v < s.length := bwd_lt_length hk (by simp)
      have ha : a < v := (hwf v).2 a (by rw [hk]; simp [refsOf])
      have ha' : a < s.length := Nat.lt_trans ha hvlen
      refine ⟨addGrad s a ((nodeAt s v).data * (1 - (nodeAt s v).data) * (nodeAt s v).grad),
        by simp only [stepBwd, hk], by simp,
        fun i => addGrad_sameStruct .., fun i => ?_⟩
      rw [one_write _ ha']
      simp only [contribAt, hk]
  | tanh a =>
      have hvlen : v < s.length := bwd_lt_length hk (by simp)
      have ha : a < v := (hwf v).2 a (by rw [hk]; simp [refsOf])
      have ha' : a < s.length := Nat.lt_trans ha hvlen
      refine ⟨addGrad s a ((1 - (nodeAt s v).data ^ 2) * (nodeAt s v).grad),
        by simp only [stepBwd, hk], by simp,
        fun i => addGrad_sameStruct .., fun i => ?_⟩
      rw [one_write _ ha']
      simp only [contribAt, hk]
  | leakyRelu alpha a =>
      have hvlen : v < s.length := bwd_lt_length hk (by simp)
      have ha : a < v := (hwf v).2 a (by rw [hk]; simp [refsOf])
      have ha' : a < s.length := Nat.lt_trans ha hvlen
      refine ⟨addGrad s a ((if (nodeAt s a).data < 0 then alpha else 1) * (nodeAt s v).grad),
        by simp only [stepBwd, hk], by simp,
        fun i => addGrad_sameStruct .., fun i => ?_⟩
      rw [one_write _ ha']
      simp only [contribAt, hk]
  | elu alpha a =>
      have hvlen : v < s.length := bwd_lt_length hk (by simp)
      have ha : a < v := (hwf v).2 a (by rw [hk]; simp [refsOf])
      have ha' : a < s.length := Nat.lt_trans ha hvlen
      refine ⟨addGrad s a ((if (nodeAt s a).data < 0 then alpha * P.exp (nodeAt s v).data else 1) * (nodeAt s v).grad),
        by simp only [stepBwd, hk], by simp,
        fun i => addGrad_sameStruct .., fun i => ?_⟩
      rw [one_write _ ha']
      simp only [contribAt, hk]
  | exp a =>
      have hvlen : v < s.length := bwd_lt_length hk (by simp)
      have ha : a < v := (hwf v).2 a (by rw [hk]; simp [refsOf])
      have ha' : a < s.length := Nat.lt_trans ha hvlen
      refine ⟨addGrad s a ((nodeAt s v).data * (nodeAt s v).grad),
        by simp only [stepBwd, hk], by simp,
        fun i => addGrad_sameStruct .., fun i => ?_⟩
      rw [one_write _ ha']
      simp only [contribAt, hk]

/-- The contribution is zero for nodes the closure does not reference. -/
theorem contribAt_eq_zero {P : Prims} {s : St} {v i : Nat}
    (h : i ∉ refsOf (nodeAt s v).bwd) : contribAt P s v i = 0 := by
  cases hk : (nodeAt s v).bwd <;> rw [hk] at h <;>
    simp [refsOf] at h <;> simp [contribAt, hk] <;> simp_all

/-- The contribution never reads the gradient accumulator of a node other
than `v` itself: changing some other node's gradient leaves it unchanged. -/
theorem contribAt_addGrad_other (P : Prims) (s : St) {v j : Nat} (d : ℚ)
    (hj : j ≠ v) (i : Nat) :
    contribAt P (addGrad s j d) v i = contribAt P s v i := by
  have hb : (nodeAt (addGrad s j d) v).bwd = (nodeAt s v).bwd :=
    (addGrad_sameStruct _ _ _ _).2.2.2
  have hg : (nodeAt (addGrad s j d) v).grad = (nodeAt s v).grad := by
    rw [addGrad_grad]; simp [Ne.symm hj]
  have hd : ∀ x, (nodeAt (addGrad s j d) x).data = (nodeAt s x).data :=
    fun x => (addGrad_sameStruct _ _ _ _).1
  cases hk : (nodeAt s v).bwd <;>
    simp only [contribAt, hb, hk, hg, hd]

/-! ### The backward loop -/

theorem runSteps_ok (P : Prims) :
    ∀ L (s : St), WF s → (∀ v ∈ L, isRawDiv (nodeAt s v).bwd = false) →
      ∃ s', runSteps P s L = .ok s' ∧ s'.length = s.length ∧
        (∀ i, sameStruct (nodeAt s' i) (nodeAt s i)) ∧
        (∀ i, (∀ v ∈ L, i ∉ refsOf (nodeAt s v).bwd) →
          (nodeAt s' i).grad = (nodeAt s i).grad) := by
  intro L
  induction L with
  | nil =>
      intro s _ _
      exact ⟨s, rfl, rfl, fun i => sameStruct_rfl _, fun i _ => rfl⟩
  | cons v L ih =>
      intro s hwf hnr
      obtain ⟨s1, hs1, hlen1, hstruct1, hgrad1⟩ :=
        stepBwd_ok P hwf (hnr v (List.mem_cons_self v L))
      have hwf1 : WF s1 := by
        intro i
        have h := hstruct1 i
        rw [h.2.2.1, h.2.2.2]
        exact hwf i
      have hnr1 : ∀ u ∈ L, isRawDiv (nodeAt s1 u).bwd = false := by
        intro u hu
        rw [(hstruct1 u).2.2.2]
        exact hnr u (List.mem_cons_of_mem v hu)
      obtain ⟨s', hs', hlen', hstruct', hgrad'⟩ := ih s1 hwf1 hnr1
      refine ⟨s', ?_, hlen'.trans hlen1,
        fun i => sameStruct_trans (hstruct' i) (hstruct1 i), ?_⟩
      · simp only [runSteps, hs1]
        exact hs'
      · intro i hi
        have hL : ∀ u ∈ L, i ∉ refsOf (nodeAt s1 u).bwd := by
          intro u hu
          rw [(hstruct1 u).2.2.2]
          exact hi u (List.mem_cons_of_mem v hu)
        rw [hgrad' i hL, hgrad1 i,
          contribAt_eq_zero (hi v (List.mem_cons_self v L)), add_zero]

/-- `backward` terminates normally on raw-free well-formed graphs, never
touches any field except the gradients, and leaves the root gradient
at exactly 1. -/
theorem backward_ok (P : Prims) {s : St} {root : Nat} (hwf : WF s)
    (hroot : root < s.length) (hnr : NoRaw s) :
    ∃ s', backward P s root = .ok s' ∧ s'.length = s.length ∧
      (∀ i, sameStruct (nodeAt s' i) (nodeAt s i)) ∧
      (nodeAt s' root).grad = 1 := by
  set s0 := setGrad s root 1 with hs0
  have hstruct0 : ∀ i, sameStruct (nodeAt s0 i) (nodeAt s i) :=
    fun i => setGrad_sameStruct s root 1 i
  have hwf0 : WF s0 := by
    intro i
    have h := hstruct0 i
    rw [h.2.2.1, h.2.2.2]
    exact hwf i
  have hnr0 : ∀ v ∈ execOrder s root, isRawDiv (nodeAt s0 v).bwd = false := by
    intro v _
    rw [(hstruct0 v).2.2.2]
    exact hnr v
  obtain ⟨s', hs', hlen', hstruct', hgrad'⟩ :=
    runSteps_ok P (execOrder s root) s0 hwf0 hnr0
  have hlen0 : s0.length = s.length := by simp [hs0]
  refine ⟨s', hs', hlen'.trans hlen0,
    fun i => sameStruct_trans (hstruct' i) (hstruct0 i), ?_⟩
  have hroot_pres : ∀ v ∈ execOrder s root, root ∉ refsOf (nodeAt s0 v).bwd := by
    intro v hv hmem
    rw [(hstruct0 v).2.2.2] at hmem
    have : root < v := (hwf v).2 root hmem
    exact Nat.lt_irrefl root (Nat.lt_of_lt_of_le this (execOrder_le hwf hv))
  rw [hgrad' root hroot_pres, hs0, setGrad_grad]
  simp [hroot]

/-! ### Helpers for evaluating concrete graphs -/

theorem ok_congr {e : Except String ℚ} {q q' : ℚ} (h : e = .ok q)
    (hq : q = q') : e = .ok q' := by rw [h, hq]

theorem addGrad_data (s : St) (i : Nat) (d : ℚ) (j : Nat) :
    (nodeAt (addGrad s i d) j).data = (nodeAt s j).data :=
  (addGrad_sameStruct s i d j).1

theorem setGrad_data (s : St) (i : Nat) (x : ℚ) (j : Nat) :
    (nodeAt (setGrad s i x) j).data = (nodeAt s j).data :=
  (setGrad_sameStruct s i x j).1

/-! ### Concrete graphs used by the claims -/

/-- Diamond graph: `a = Value(x)`, `p = a * c1`, `q = a * c2`, `r = p + q`;
node 0 is `a`, nodes 1/3 the auto-lifted coefficient leaves, node 2 is `p`,
node 4 is `q`, node 5 the root `r`.  The leaf `a` is an operand of the two
distinct downstream nodes `p` and `q`, both feeding the root. -/
def diamondSt (x c1 c2 : ℚ) : St :=
  let s1 := (Value.init [] x).1
  let s2 := (Value.mul s1 0 (.raw c1)).1
  let s3 := (Value.mul s2 0 (.raw c2)).1
  (Value.add s3 2 (.node 4)).1

set_option maxHeartbeats 1000000 in
theorem diamondSt_eq (x c1 c2 : ℚ) : diamondSt x c1 c2 =
    [⟨x, 0, "", [], .none⟩, ⟨c1, 0, "", [], .none⟩,
     ⟨x * c1, 0, "*", [0, 1], .mul 0 1⟩, ⟨c2, 0, "", [], .none⟩,
     ⟨x * c2, 0, "*", [0, 3], .mul 0 3⟩,
     ⟨x * c1 + x * c2, 0, "+", [2, 4], .add 2 4⟩] := by
  rfl

/-- Division graph: `a = Value(x)`, `b = Value(y)`, `out = a / b`;
node 2 is the auto-lifted `Value(-1)` inside `b ** -1`, node 3 the `**`
node, node 4 the `*` output whose closure was overwritten by
`__truediv__`. -/
def divSt (P : Prims) (x y : ℚ) : St :=
  let s1 := (Value.init [] x).1
  let s2 := (Value.init s1 y).1
  (Value.truediv P s2 0 (.node 1)).1

theorem divSt_eq (P : Prims) (x y : ℚ) : divSt P x y =
    [⟨x, 0, "", [], .none⟩, ⟨y, 0, "", [], .none⟩,
     ⟨-1, 0, "", [], .none⟩,
     ⟨P.pow y (-1), 0, "**", [1, 2], .pow 1 2⟩,
     ⟨x * P.pow y (-1), 0, "*", [0, 3], .div 0 1⟩] := by
  rfl

/-- Two-level chain: `a = Value(1)`, `b = a * 3`, `c = b * 2`
(nodes 1 and 3 are the lifted coefficient leaves, node 4 the root). -/
def chainSt : St :=
  let s1 := (Value.init [] 1).1
  let s2 := (Value.mul s1 0 (.raw 3)).1
  (Value.mul s2 2 (.raw 2)).1

/-- One-level graph: `a = Value(x)`, `b = Value(y)`, `r = a * b` (node 2). -/
def oneLevelSt (x y : ℚ) : St :=
  let s1 := (Value.init [] x).1
  let s2 := (Value.init s1 y).1
  (Value.mul s2 0 (.node 1)).1

/-! ### Claim C2 -/

/-- Claim C2: in a diamond (node 0 is an operand of the two distinct nodes
2 and 4, which feed the root 5), the accumulated gradient of node 0 after
`backward()` is the sum `c1 + c2` of the partial derivatives along the two
paths; moreover every closure run only adds contributions into gradient
accumulators (never overwrites): the new gradient is the old gradient plus
`contribAt`, and the contribution added to a node never depends on that
node's own stored gradient. -/
theorem claim_C2 :
    (∀ (P : Prims) (x c1 c2 : ℚ),
      gradAfter P (diamondSt x c1 c2) 5 0 = .ok (c1 + c2)) ∧
    (∀ (P : Prims) (s : St) (v a b : Nat), WF s →
      (nodeAt s v).bwd = .add a b →
      ∃ s', stepBwd P s v = .ok s' ∧
        (∀ i, (nodeAt s' i).grad = (nodeAt s i).grad +
          ((if i = a then (nodeAt s v).grad else 0) +
           (if i = b then (nodeAt s v).grad else 0))) ∧
        (∀ i d, i ≠ v → ∀ j,
          contribAt P (addGrad s i d) v j = contribAt P s v j)) := by
  constructor
  · intro P x c1 c2
    rw [diamondSt_eq]
    refine ok_congr rfl ?_
    simp [addGrad_grad, setGrad_grad, addGrad_data, setGrad_data]
    norm_num [nodeAt, List.getD]
    ring
  · intro P s v a b hwf hk
    obtain ⟨s', h1, _, _, h4⟩ := stepBwd_ok P hwf (by rw [hk]; rfl)
    refine ⟨s', h1, fun i => ?_, fun i d hiv j =>
      contribAt_addGrad_other P s d hiv j⟩
    rw [h4 i]
    simp only [contribAt, hk]

/-- Witness for C2. -/
theorem claim_C2_witness :
    gradAfter P0 (diamondSt 2 3 5) 5 0 = .ok 8 := by
  have h := claim_C2.1 P0 2 3 5
  rw [h]
  norm_num

/-! ### Claim C3 -/

/-- Claim C3: for `b.value` nonzero, `a / b` is built as `a * b ** -1`
(the output is a `*` node over `a` and a `**` node over `b` and a lifted
`Value(-1)`), its value is `a.value * b.value⁻¹`, and `backward()` from it
on fresh (all-zero) gradients yields `a.grad = 1 / b.value` and
`b.grad = -(a.value / b.value²)`.  The only fact needed about the float
power primitive is `y ** -1 = y⁻¹`. -/
theorem claim_C3 (P : Prims) (x y : ℚ) (hy : y ≠ 0)
    (hpow : P.pow y (-1) = y⁻¹) :
    (nodeAt (divSt P x y) 4).data = x * y⁻¹ ∧
    (nodeAt (divSt P x y) 4).op = "*" ∧
    (nodeAt (divSt P x y) 4).prev = [0, 3] ∧
    (nodeAt (divSt P x y) 3).op = "**" ∧
    (nodeAt (divSt P x y) 3).prev = [1, 2] ∧
    (nodeAt (divSt P x y) 2).data = -1 ∧
    gradAfter P (divSt P x y) 4 0 = .ok (1 / y) ∧
    gradAfter P (divSt P x y) 4 1 = .ok (-(x / y ^ 2)) := by
  refine ⟨?_, ?_, ?_, ?_, ?_, ?_, ?_, ?_⟩
  · rw [divSt_eq]; norm_num [nodeAt, List.getD, hpow]
  · rw [divSt_eq]; norm_num [nodeAt, List.getD]
  · rw [divSt_eq]; norm_num [nodeAt, List.getD]
  · rw [divSt_eq]; norm_num [nodeAt, List.getD]
  · rw [divSt_eq]; norm_num [nodeAt, List.getD]
  · rw [divSt_eq]; norm_num [nodeAt, List.getD]
  · rw [divSt_eq]
    refine ok_congr rfl ?_
    simp [addGrad_grad, setGrad_grad, addGrad_data, setGrad_data]
    norm_num [nodeAt, List.getD]
  · rw [divSt_eq]
    refine ok_congr rfl ?_
    simp [addGrad_grad, setGrad_grad, addGrad_data, setGrad_data]
    norm_num [nodeAt, List.getD]
    try ring

/-- Witness for C3: `a = 6`, `b = 2` gives value 3, `∂/∂a = 0.5`,
`∂/∂b = -1.5`. -/
theorem claim_C3_witness :
    (nodeAt (divSt P0 6 2) 4).data = 3 ∧
    gradAfter P0 (divSt P0 6 2) 4 0 = .ok (1 / 2) ∧
    gradAfter P0 (divSt P0 6 2) 4 1 = .ok (-(3 / 2)) := by
  have hp : P0.pow 2 (-1) = (2 : ℚ)⁻¹ := by
    have h0 : P0.pow 2 (-1) = ((1 : ℚ) * 2)⁻¹ := rfl
    rw [h0]; norm_num
  have h := claim_C3 P0 6 2 (by norm_num) hp
  refine ⟨by rw [h.1]; norm_num, h.2.2.2.2.2.2.1, ?_⟩
  refine ok_congr h.2.2.2.2.2.2.2 (by norm_num)

theorem chainSt_eq : chainSt =
    [⟨1, 0, "", [], .none⟩, ⟨3, 0, "", [], .none⟩,
     ⟨1 * 3, 0, "*", [0, 1], .mul 0 1⟩, ⟨2, 0, "", [], .none⟩,
     ⟨1 * 3 * 2, 0, "*", [2, 3], .mul 2 3⟩] := by
  rfl

theorem oneLevelSt_eq (x y : ℚ) : oneLevelSt x y =
    [⟨x, 0, "", [], .none⟩, ⟨y, 0, "", [], .none⟩,
     ⟨x * y, 0, "*", [0, 1], .mul 0 1⟩] := by
  rfl

/-! ### Claim C6 (corrected) -/

/-- Counterexample to claim C6: on the two-level chain `c = (a * 3) * 2`
with `a = Value(1)`, the first `backward()` leaves `a.grad = 6`, but a
second `backward()` with no zeroing in between leaves `a.grad = 18`, not
`2 * 6 = 12`: the second pass propagates through the interior gradients
left over from the first pass, compounding them. -/
theorem claim_C6_counterexample :
    gradAfter P0 chainSt 4 0 = .ok 6 ∧
    gradAfterTwice P0 chainSt 4 0 = .ok 18 ∧ (18 : ℚ) ≠ 2 * 6 := by
  refine ⟨?_, ?_, by norm_num⟩
  · rw [chainSt_eq]
    refine ok_congr rfl ?_
    simp [addGrad_grad, setGrad_grad, addGrad_data, setGrad_data]
    norm_num [nodeAt, List.getD]
  · rw [chainSt_eq]
    refine ok_congr rfl ?_
    simp [addGrad_grad, setGrad_grad, addGrad_data, setGrad_data]
    norm_num [nodeAt, List.getD]

/-- Claim C6, amended: calling `backward()` twice without zeroing doubles
the gradients of leaves that are direct operands of the root (one-level
graphs); for deeper graphs the second pass compounds the non-zeroed
interior gradients — on the two-level chain the leaf gradient is tripled. -/
theorem claim_C6_amended :
    (∀ x y : ℚ,
      gradAfter P0 (oneLevelSt x y) 2 0 = .ok y ∧
      gradAfterTwice P0 (oneLevelSt x y) 2 0 = .ok (2 * y) ∧
      gradAfter P0 (oneLevelSt x y) 2 1 = .ok x ∧
      gradAfterTwice P0 (oneLevelSt x y) 2 1 = .ok (2 * x)) ∧
    gradAfterTwice P0 chainSt 4 0 = .ok (3 * 6) := by
  constructor
  · intro x y
    refine ⟨?_, ?_, ?_, ?_⟩ <;>
      · rw [oneLevelSt_eq]
        refine ok_congr rfl ?_
        simp [addGrad_grad, setGrad_grad, addGrad_data, setGrad_data]
        norm_num [nodeAt, List.getD]
        try ring
  · rw [chainSt_eq]
    refine ok_congr rfl ?_
    simp [addGrad_grad, setGrad_grad, addGrad_data, setGrad_data]
    norm_num [nodeAt, List.getD]

/-- Witness for C6 (amended): one-level doubling at `x = 4`, `y = 7`. -/
theorem claim_C6_amended_witness :
    gradAfterTwice P0 (oneLevelSt 4 7) 2 0 = .ok 14 := by
  have h := (claim_C6_amended.1 4 7).2.1
  refine ok_congr h (by norm_num)

/-! ### Claim C5 (corrected) -/

/-- The graph built by `Value(6) / 2` (raw right operand): `__truediv__`
does not wrap the raw number; `2 ** -1` is plain number arithmetic, the
`*` lifts the result `0.5` into a leaf, and the overwritten backward
closure captures the raw `2` itself. -/
def divRawSt : St := (Value.truediv P0 (Value.init [] 6).1 0 (.raw 2)).1

theorem divRawSt_eq : divRawSt =
    [⟨6, 0, "", [], .none⟩, ⟨(2 : ℚ)⁻¹, 0, "", [], .none⟩,
     ⟨6 * (2 : ℚ)⁻¹, 0, "*", [0, 1], .divRaw 0 2⟩] := by
  rfl

/-- Counterexample to claim C5: dividing by the raw number 2 and dividing
by an explicitly constructed `Value(2)` are *not* identical: the raw case
builds a 3-node graph whose second operand is a leaf and whose `backward()`
raises (`AttributeError`, the closure reading `other.data` on a plain
number), while the explicit case builds a 5-node graph through `**` whose
`backward()` succeeds with `a.grad = 1/2`. -/
theorem claim_C5_counterexample :
    gradAfter P0 divRawSt 2 0 = .error "AttributeError" ∧
    gradAfter P0 (divSt P0 6 2) 4 0 = .ok (1 / 2) ∧
    (nodeAt divRawSt 2).prev = [0, 1] ∧ (nodeAt divRawSt 1).prev = [] ∧
    (nodeAt (divSt P0 6 2) 4).prev = [0, 3] ∧
    (nodeAt (divSt P0 6 2) 3).prev = [1, 2] := by
  refine ⟨rfl, ?_, rfl, rfl, rfl, rfl⟩
  rw [divSt_eq]
  refine ok_congr rfl ?_
  simp [addGrad_grad, setGrad_grad, addGrad_data, setGrad_data]
  norm_num [nodeAt, List.getD]

/-- Claim C5, amended: auto-lifting of a raw numeric operand into a
zero-gradient, operand-free leaf holds verbatim for addition,
multiplication and exponentiation (the wrapped case is the very same code
path as the explicit-`Value` case).  It fails for subtraction and
division: `__sub__` wraps the already-negated number, producing a leaf
`-c` where the explicit-`Value` case inserts a multiplication-by-`-1`
node, and `__truediv__` performs no wrapping at all — its overwritten
backward closure captures the raw number and raises when run. -/
theorem claim_C5_amended :
    (∀ (s : St) (a : Nat) (c : ℚ), Value.add s a (.raw c) =
      Value.add (Value.init s c).1 a (.node (Value.init s c).2)) ∧
    (∀ (s : St) (a : Nat) (c : ℚ), Value.mul s a (.raw c) =
      Value.mul (Value.init s c).1 a (.node (Value.init s c).2)) ∧
    (∀ (P : Prims) (s : St) (a : Nat) (c : ℚ), Value.pow P s a (.raw c) =
      Value.pow P (Value.init s c).1 a (.node (Value.init s c).2)) ∧
    (∀ x c : ℚ,
      (Value.sub (Value.init [] x).1 0 (.raw c)).2 = 2 ∧
      (nodeAt (Value.sub (Value.init [] x).1 0 (.raw c)).1 2).prev = [0, 1] ∧
      (nodeAt (Value.sub (Value.init [] x).1 0 (.raw c)).1 1).prev = [] ∧
      (nodeAt (Value.sub (Value.init [] x).1 0 (.raw c)).1 1).data = -c) ∧
    (∀ x c : ℚ,
      (Value.sub (Value.init (Value.init [] x).1 c).1 0 (.node 1)).2 = 4 ∧
      (nodeAt (Value.sub (Value.init (Value.init [] x).1 c).1 0
        (.node 1)).1 4).prev = [0, 3] ∧
      (nodeAt (Value.sub (Value.init (Value.init [] x).1 c).1 0
        (.node 1)).1 3).op = "*" ∧
      (nodeAt (Value.sub (Value.init (Value.init [] x).1 c).1 0
        (.node 1)).1 3).prev = [1, 2]) ∧
    (∀ (s : St) (a : Nat) (c : ℚ) (v : Nat),
      (nodeAt s v).bwd = .divRaw a c →
      stepBwd P0 s v = .error "AttributeError") ∧
    (∀ x c : ℚ, c ≠ 0 →
      (nodeAt (Value.truediv P0 (Value.init [] x).1 0 (.raw c)).1 2).bwd =
        .divRaw 0 c) := by
  refine ⟨fun s a c => rfl, fun s a c => rfl, fun P s a c => rfl,
    fun x c => ⟨rfl, rfl, rfl, rfl⟩, fun x c => ⟨rfl, rfl, rfl, rfl⟩,
    fun s a c v hk => by simp only [stepBwd, hk], fun x c _ => rfl⟩

/-- Witness for C5 (amended): the broken closure installed by
`Value(6) / 2`. -/
theorem claim_C5_witness :
    (nodeAt (Value.truediv P0 (Value.init [] 6).1 0 (.raw 2)).1 2).bwd =
      .divRaw 0 2 :=
  claim_C5_amended.2.2.2.2.2.2 6 2 (by norm_num)

/-! ### Claim C1 -/

/-- Claim C1: `backward()` executes the `_backward` closures exactly along
`execOrder` (the reversed DFS post-order built by `build_topo`); that
order contains exactly the nodes reachable from the root, each exactly
once (it has no duplicates), and whenever node `v` comes up for execution,
every consumer of `v` in the traversed graph (a node `u` in the order with
`v` among its operands) lies strictly before `v` — i.e. all of a node's
consumers have already run when its own closure runs. -/
theorem claim_C1 (s : St) (root : Nat) (hwf : WF s) :
    (∀ P, backward P s root =
      runSteps P (setGrad s root 1) (execOrder s root)) ∧
    (execOrder s root).Nodup ∧
    (∀ v, Reaches s root v ↔ v ∈ execOrder s root) ∧
    (∀ l1 v l2, execOrder s root = l1 ++ v :: l2 →
      ∀ u ∈ execOrder s root, v ∈ (nodeAt s u).prev → u ∈ l1) :=
  ⟨fun _ => rfl, execOrder_nodup hwf root,
   fun _ => (mem_execOrder hwf).symm, execOrder_consumers_first hwf root⟩

/-- Witness for C1 on the concrete diamond graph. -/
theorem claim_C1_witness :
    WF (diamondSt 1 1 1) ∧ (execOrder (diamondSt 1 1 1) 5).Nodup :=
  have hwf : WF (diamondSt 1 1 1) := WF_of_WFb (by decide)
  ⟨hwf, (claim_C1 (diamondSt 1 1 1) 5 hwf).2.1⟩

/-! ### Claim C9 -/

/-- Claim C9: a `backward()` call mutates only gradients — for every node
the `data`, `_op`, `_prev` and `_backward` fields are unchanged; the
invoking root's gradient is overwritten to 1 (and is still 1 at the end);
and every other gradient change is an additive accumulation: each closure
run turns every gradient `g i` into `g i + contribAt … i`, where the
contribution added to a node never depends on that node's own stored
gradient. -/
theorem claim_C9 (P : Prims) (s : St) (root : Nat) (hwf : WF s)
    (hroot : root < s.length) (hnr : NoRaw s) :
    (∃ s', backward P s root = .ok s' ∧ s'.length = s.length ∧
      (∀ i, (nodeAt s' i).data = (nodeAt s i).data ∧
            (nodeAt s' i).op = (nodeAt s i).op ∧
            (nodeAt s' i).prev = (nodeAt s i).prev ∧
            (nodeAt s' i).bwd = (nodeAt s i).bwd) ∧
      (nodeAt s' root).grad = 1) ∧
    (∀ (t : St) (v : Nat), WF t → isRawDiv (nodeAt t v).bwd = false →
      ∃ t', stepBwd P t v = .ok t' ∧
        (∀ i, (nodeAt t' i).grad = (nodeAt t i).grad + contribAt P t v i) ∧
        (∀ i d, i ≠ v → ∀ j,
          contribAt P (addGrad t i d) v j = contribAt P t v j)) := by
  constructor
  · obtain ⟨s', h1, h2, h3, h4⟩ := backward_ok P hwf hroot hnr
    exact ⟨s', h1, h2, fun i => h3 i, h4⟩
  · intro t v hwt hnrt
    obtain ⟨t', h1, _, _, h4⟩ := stepBwd_ok P hwt hnrt
    exact ⟨t', h1, h4, fun i d hiv j => contribAt_addGrad_other P t d hiv j⟩

/-- Witness for C9: after `backward()` on the one-level product the root
gradient is exactly 1. -/
theorem claim_C9_witness :
    gradAfter P0 (oneLevelSt 2 3) 2 2 = .ok 1 := by
  obtain ⟨s', h1, _, _, h4⟩ :=
    (claim_C9 P0 (oneLevelSt 2 3) 2 (WF_of_WFb (by decide)) (by decide)
      (NoRaw_of_NoRawB (by decide))).1
  rw [gradAfter, h1]
  show Except.ok ((nodeAt s' 2).grad) = Except.ok 1
  rw [h4]

/-! ### Claim C7 -/

/-- Claim C7: the backward step of `a ** b` adds
`(b.value * a.value^(b.value-1) if a.value ≠ 0 else 0) * out.grad` to the
base gradient and `((a.value^b.value) * ln(a.value) if a.value > 0 else 0)
* out.grad` to the exponent gradient; it never raises (it returns a
state), and the logarithm is never evaluated on a non-positive base: the
result is unchanged under any reinterpretation of `log` that agrees only
on positive arguments. -/
theorem claim_C7 (P : Prims) (s : St) (v a b : Nat) (hwf : WF s)
    (hk : (nodeAt s v).bwd = .pow a b) (hab : a ≠ b) :
    ∃ s', stepBwd P s v = .ok s' ∧
      (nodeAt s' a).grad = (nodeAt s a).grad +
        (if (nodeAt s a).data ≠ 0 then
           (nodeAt s b).data * P.pow (nodeAt s a).data ((nodeAt s b).data - 1)
         else 0) * (nodeAt s v).grad ∧
      (nodeAt s' b).grad = (nodeAt s b).grad +
        (if 0 < (nodeAt s a).data then
           P.pow (nodeAt s a).data (nodeAt s b).data * P.log (nodeAt s a).data
         else 0) * (nodeAt s v).grad ∧
      (∀ Q : Prims, Q.pow = P.pow →
        (∀ x : ℚ, 0 < x → Q.log x = P.log x) →
        stepBwd Q s v = stepBwd P s v) := by
  obtain ⟨s', h1, _, _, h4⟩ := stepBwd_ok P hwf (by rw [hk]; rfl)
  refine ⟨s', h1, ?_, ?_, ?_⟩
  · rw [h4 a]
    simp only [contribAt, hk, if_pos rfl, if_neg hab, add_zero, if_true]
  · rw [h4 b]
    simp only [contribAt, hk, if_pos rfl, if_neg (Ne.symm hab), zero_add,
      if_true]
  · intro Q hQpow hQlog
    by_cases hav : 0 < (nodeAt s a).data
    · simp only [stepBwd, hk, hQpow, hQlog _ hav, if_pos hav]
    · simp only [stepBwd, hk, hQpow, if_neg hav]

/-- The graph of `Value(2) ** 3` with the output gradient seeded to 1. -/
def powSt3 : St := setGrad (Value.pow P0 (Value.init [] 2).1 0 (.raw 3)).1 2 1

theorem powSt3_eq : powSt3 =
    [⟨2, 0, "", [], .none⟩, ⟨3, 0, "", [], .none⟩,
     ⟨P0.pow 2 3, 1, "**", [0, 1], .pow 0 1⟩] := by
  rfl

/-- Witness for C7: the base gradient of `pow(2, 3)` is `3 * 2² = 12`. -/
theorem claim_C7_witness :
    (stepBwd P0 powSt3 2).map (fun t => (nodeAt t 0).grad) = .ok 12 := by
  obtain ⟨s', h1, h2, _⟩ :=
    claim_C7 P0 powSt3 2 0 1 (WF_of_WFb (by decide)) rfl (by decide)
  rw [h1]
  show Except.ok ((nodeAt s' 0).grad) = Except.ok 12
  rw [h2]
  rw [powSt3_eq]
  have hpow : P0.pow 2 2 = (1 : ℚ) * 2 * 2 := rfl
  norm_num [nodeAt, List.getD, hpow]

/-! ### Claim C8 -/

/-- Dereferencing the node a `mkNode` call just returned. -/
theorem nodeAt_mkNode_out (s : St) (d : ℚ) (p : List Nat) (o : String)
    (k : BwdKind) :
    nodeAt (mkNode s d p o k).1 (mkNode s d p o k).2 = ⟨d, 0, o, p, k⟩ :=
  nodeAt_mkNode_self s d p o k

/-- The output record of `elu`, in both branches. -/
theorem elu_out (P : Prims) (s : St) (a : Nat) (alpha : ℚ) :
    nodeAt (Value.elu P s a alpha).1 (Value.elu P s a alpha).2 =
      ⟨(if (nodeAt s a).data < 0 then alpha * (P.exp (nodeAt s a).data - 1)
        else (nodeAt s a).data), 0, "ELU", [a], .elu alpha a⟩ := by
  by_cases h : (nodeAt s a).data < 0
  · simp only [Value.elu, Value.exp, if_pos h, nodeAt_mkNode_out]
  · simp only [Value.elu, Value.exp, if_neg h, nodeAt_mkNode_out]

/-- Claim C8: `elu(a, α)` produces a node with value `a.value` when
`a.value ≥ 0` and `α * (e^(a.value) - 1)` otherwise, wired to `a` alone;
its backward step adds `(α * e^(out.value) if a.value < 0 else 1) *
out.grad` to the input gradient — the negative branch re-exponentiates the
*output* value (`out.exp()`), preserving the documented discrepancy with
the mathematical ELU derivative. -/
theorem claim_C8 (P : Prims) (s : St) (a : Nat) (alpha : ℚ) :
    ((nodeAt (Value.elu P s a alpha).1 (Value.elu P s a alpha).2).data =
      (if (nodeAt s a).data < 0 then alpha * (P.exp (nodeAt s a).data - 1)
       else (nodeAt s a).data)) ∧
    ((nodeAt (Value.elu P s a alpha).1 (Value.elu P s a alpha).2).prev =
      [a]) ∧
    ((nodeAt (Value.elu P s a alpha).1 (Value.elu P s a alpha).2).bwd =
      .elu alpha a) ∧
    (∀ (t : St) (v : Nat), WF t → (nodeAt t v).bwd = .elu alpha a →
      ∃ t', stepBwd P t v = .ok t' ∧
        (nodeAt t' a).grad = (nodeAt t a).grad +
          (if (nodeAt t a).data < 0 then alpha * P.exp (nodeAt t v).data
           else 1) * (nodeAt t v).grad) := by
  refine ⟨by rw [elu_out], by rw [elu_out], by rw [elu_out], ?_⟩
  intro t v hwt hk
  obtain ⟨t', h1, _, _, h4⟩ := stepBwd_ok P hwt (by rw [hk]; rfl)
  refine ⟨t', h1, ?_⟩
  rw [h4 a]
  simp only [contribAt, hk, if_pos rfl, if_true]

/-- Witness for C8: `elu` of a node with value `-1` (and `α = 1`) has
value `1 * (e^(-1) - 1)`, which is `-1` under the test interpretation
`exp = 0`. -/
theorem claim_C8_witness :
    (nodeAt (Value.elu P0 (Value.init [] (-1)).1 0 1).1
      (Value.elu P0 (Value.init [] (-1)).1 0 1).2).data = -1 := by
  have h := (claim_C8 P0 (Value.init [] (-1)).1 0 1).1
  rw [h]
  have hd : (nodeAt (Value.init [] (-1)).1 0).data = -1 := rfl
  rw [hd]
  norm_num [P0]

/-! ### Claim C10 -/

theorem WF_init {s : St} {d : ℚ} (hwf : WF s) : WF (Value.init s d).1 :=
  WF_mkNode hwf (by simp) (by simp [refsOf])

theorem length_mul_raw (s : St) (a : Nat) (c : ℚ) :
    (Value.mul s a (.raw c)).1.length = s.length + 2 := by
  simp [Value.mul, Value.init]

theorem snd_mul_raw (s : St) (a : Nat) (c : ℚ) :
    (Value.mul s a (.raw c)).2 = s.length + 1 := by
  simp [Value.mul, Value.init]

theorem WF_mul_raw {s : St} {a : Nat} {c : ℚ} (hwf : WF s)
    (ha : a < s.length) : WF (Value.mul s a (.raw c)).1 := by
  refine WF_mkNode (WF_init hwf) ?_ ?_
  · intro x hx
    simp [Value.init] at hx ⊢
    rcases hx with rfl | rfl
    · exact Nat.lt_succ_of_lt ha
    · exact Nat.lt_succ_self _
  · intro x hx
    simp [Value.init, refsOf] at hx ⊢
    rcases hx with rfl | rfl
    · exact Nat.lt_succ_of_lt ha
    · exact Nat.lt_succ_self _

theorem WF_exp_mul_raw {s : St} (P : Prims) {a : Nat} {c : ℚ} (hwf : WF s)
    (ha : a < s.length) :
    WF (Value.exp P (Value.mul s a (.raw c)).1
      (Value.mul s a (.raw c)).2).1 := by
  refine WF_mkNode (WF_mul_raw hwf ha) ?_ ?_
  · intro x hx
    simp at hx
    rw [hx, snd_mul_raw, length_mul_raw]
    omega
  · intro x hx
    simp [refsOf] at hx
    rw [hx, snd_mul_raw, length_mul_raw]
    omega

theorem length_exp_mul_raw (P : Prims) (s : St) (a : Nat) (c : ℚ) :
    (Value.exp P (Value.mul s a (.raw c)).1
      (Value.mul s a (.raw c)).2).1.length = s.length + 3 := by
  simp [Value.exp, length_mul_raw]

theorem WF_sigmoid {s : St} (P : Prims) {a : Nat} (hwf : WF s)
    (ha : a < s.length) : WF (Value.sigmoid P s a).1 := by
  unfold Value.sigmoid Value.neg
  refine WF_mkNode (WF_exp_mul_raw P hwf ha) ?_ ?_
  · intro x hx
    simp at hx
    rw [hx, length_exp_mul_raw]
    exact Nat.lt_of_lt_of_le ha (by omega)
  · intro x hx
    simp [refsOf] at hx
    rw [hx, length_exp_mul_raw]
    exact Nat.lt_of_lt_of_le ha (by omega)

theorem WF_tanh {s : St} (P : Prims) {a : Nat} (hwf : WF s)
    (ha : a < s.length) : WF (Value.tanh P s a).1 := by
  unfold Value.tanh
  refine WF_mkNode (WF_exp_mul_raw P hwf ha) ?_ ?_
  · intro x hx
    simp at hx
    rw [hx, length_exp_mul_raw]
    exact Nat.lt_of_lt_of_le ha (by omega)
  · intro x hx
    simp [refsOf] at hx
    rw [hx, length_exp_mul_raw]
    exact Nat.lt_of_lt_of_le ha (by omega)

theorem sigmoid_snd (P : Prims) (s : St) (a : Nat) :
    (Value.sigmoid P s a).2 = s.length + 3 := by
  simp [Value.sigmoid, Value.neg, length_exp_mul_raw]

theorem tanh_snd (P : Prims) (s : St) (a : Nat) :
    (Value.tanh P s a).2 = s.length + 3 := by
  simp [Value.tanh, length_exp_mul_raw]

theorem sigmoid_out_prev (P : Prims) (s : St) (a : Nat) :
    (nodeAt (Value.sigmoid P s a).1 (Value.sigmoid P s a).2).prev = [a] :=
  congrArg NodeRec.prev (nodeAt_mkNode_out _ _ _ _ _)

theorem tanh_out_prev (P : Prims) (s : St) (a : Nat) :
    (nodeAt (Value.tanh P s a).1 (Value.tanh P s a).2).prev = [a] :=
  congrArg NodeRec.prev (nodeAt_mkNode_out _ _ _ _ _)

/-- Claim C10: the output node of `sigmoid` (resp. `tanh`) has exactly one
operand, the input itself; the three auxiliary nodes allocated while
computing the forward value (the lifted constant, the `*` node and the
`Exp` node, at indices `s.length`, `s.length + 1`, `s.length + 2`) are not
reachable from the output and are never executed by a backward pass rooted
at the output (they are not in its execution order, which is
duplicate-free); and the backward step of the output applies exactly the
closed-form derivative — `out * (1 - out)` for sigmoid, `1 - out²` for
tanh — to the input. -/
theorem claim_C10 (P : Prims) (s : St) (a : Nat) (hwf : WF s)
    (ha : a < s.length) :
    ((Value.sigmoid P s a).2 = s.length + 3 ∧
     (nodeAt (Value.sigmoid P s a).1 (Value.sigmoid P s a).2).prev = [a] ∧
     (∀ j, s.length ≤ j → j < s.length + 3 →
       ¬ Reaches (Value.sigmoid P s a).1 (Value.sigmoid P s a).2 j ∧
       j ∉ execOrder (Value.sigmoid P s a).1 (Value.sigmoid P s a).2) ∧
     (execOrder (Value.sigmoid P s a).1 (Value.sigmoid P s a).2).Nodup ∧
     (∀ (t : St) (v : Nat), WF t → (nodeAt t v).bwd = .sigmoid a →
       ∃ t', stepBwd P t v = .ok t' ∧
         (nodeAt t' a).grad = (nodeAt t a).grad +
           (nodeAt t v).data * (1 - (nodeAt t v).data) *
             (nodeAt t v).grad)) ∧
    ((Value.tanh P s a).2 = s.length + 3 ∧
     (nodeAt (Value.tanh P s a).1 (Value.tanh P s a).2).prev = [a] ∧
     (∀ j, s.length ≤ j → j < s.length + 3 →
       ¬ Reaches (Value.tanh P s a).1 (Value.tanh P s a).2 j ∧
       j ∉ execOrder (Value.tanh P s a).1 (Value.tanh P s a).2) ∧
     (execOrder (Value.tanh P s a).1 (Value.tanh P s a).2).Nodup ∧
     (∀ (t : St) (v : Nat), WF t → (nodeAt t v).bwd = .tanh a →
       ∃ t', stepBwd P t v = .ok t' ∧
         (nodeAt t' a).grad = (nodeAt t a).grad +
           (1 - (nodeAt t v).data ^ 2) * (nodeAt t v).grad)) := by
  constructor
  · have hwf' := WF_sigmoid P hwf ha
    have hnr : ∀ j, s.length ≤ j → j < s.length + 3 →
        ¬ Reaches (Value.sigmoid P s a).1 (Value.sigmoid P s a).2 j := by
      intro j hj1 hj2 hr
      rcases Reaches_head hr with heq | ⟨c, hc, hcj⟩
      · rw [heq, sigmoid_snd] at hj2
        exact Nat.lt_irrefl _ hj2
      · rw [sigmoid_out_prev] at hc
        simp at hc
        rw [hc] at hcj
        exact Nat.lt_irrefl j
          (Nat.lt_of_lt_of_le (Nat.lt_of_le_of_lt (Reaches_le hwf' hcj) ha)
            hj1)
    refine ⟨sigmoid_snd P s a, sigmoid_out_prev P s a,
      fun j hj1 hj2 => ⟨hnr j hj1 hj2, fun hmem =>
        hnr j hj1 hj2 ((mem_execOrder hwf').1 hmem)⟩,
      execOrder_nodup hwf' _, ?_⟩
    intro t v hwt hk
    obtain ⟨t', h1, _, _, h4⟩ := stepBwd_ok P hwt (by rw [hk]; rfl)
    refine ⟨t', h1, ?_⟩
    rw [h4 a]
    simp only [contribAt, hk, if_pos rfl, if_true]
  · have hwf' := WF_tanh P hwf ha
    have hnr : ∀ j, s.length ≤ j → j < s.length + 3 →
        ¬ Reaches (Value.tanh P s a).1 (Value.tanh P s a).2 j := by
      intro j hj1 hj2 hr
      rcases Reaches_head hr with heq | ⟨c, hc, hcj⟩
      · rw [heq, tanh_snd] at hj2
        exact Nat.lt_irrefl _ hj2
      · rw [tanh_out_prev] at hc
        simp at hc
        rw [hc] at hcj
        exact Nat.lt_irrefl j
          (Nat.lt_of_lt_of_le (Nat.lt_of_le_of_lt (Reaches_le hwf' hcj) ha)
            hj1)
    refine ⟨tanh_snd P s a, tanh_out_prev P s a,
      fun j hj1 hj2 => ⟨hnr j hj1 hj2, fun hmem =>
        hnr j hj1 hj2 ((mem_execOrder hwf').1 hmem)⟩,
      execOrder_nodup hwf' _, ?_⟩
    intro t v hwt hk
    obtain ⟨t', h1, _, _, h4⟩ := stepBwd_ok P hwt (by rw [hk]; rfl)
    refine ⟨t', h1, ?_⟩
    rw [h4 a]
    simp only [contribAt, hk, if_pos rfl, if_true]

/-- Witness for C10: on a single-leaf graph, the sigmoid output is node 4
and none of the auxiliary nodes 1, 2, 3 is in its execution order. -/
theorem claim_C10_witness :
    (Value.sigmoid P0 (Value.init [] 0).1 0).2 = 4 ∧
    2 ∉ execOrder (Value.sigmoid P0 (Value.init [] 0).1 0).1
      (Value.sigmoid P0 (Value.init [] 0).1 0).2 := by
  have h := (claim_C10 P0 (Value.init [] 0).1 0 (WF_of_WFb (by decide))
    (by decide)).1
  exact ⟨h.1, (h.2.2.1 2 (by decide) (by decide)).2⟩
